import Mathlib

/-!
# Verification of the smallcircles spherical-geometry engine

Shallow embedding of `small_circles.py` over the real numbers: the `Vector`
direction-cosine type and its operations, the rotation and projection
machinery, circle generation, segment joining and the samplers, together
with proofs of the specified properties.
-/

noncomputable section

namespace SmallCircles

open Real

open scoped Matrix

/-- Degrees to radians, as `math.radians`. -/
def radians (d : ℝ) : ℝ := d * Real.pi / 180

/-- Radians to degrees, as `math.degrees`. -/
def degrees (r : ℝ) : ℝ := r * 180 / Real.pi

/-- Python's float modulo for a positive modulus: `a - b*floor(a/b)`. -/
def pymod (a b : ℝ) : ℝ := a - b * (⌊a / b⌋ : ℤ)

/-- `np.clip(v, lo, hi)`. -/
def clip (v lo hi : ℝ) : ℝ := min (max v lo) hi

/-- `math.atan2 y x`: the argument of the complex number `x + y*I`. -/
def atan2 (y x : ℝ) : ℝ := Complex.arg ⟨x, y⟩

/-- `np.arange start stop step` over the reals (positive step):
`start, start+step, ...` of length `⌈(stop-start)/step⌉`. -/
def arange (start stop step : ℝ) : List ℝ :=
  (List.range ⌈(stop - start) / step⌉₊).map (fun k => start + k * step)

/-- The direction-cosine triple: the `Vector` class of the source. -/
structure Vector where
  x : ℝ
  y : ℝ
  z : ℝ

namespace Vector

/-- The zero triple. -/
def zero : Vector := ⟨0, 0, 0⟩

/-- Componentwise sum. -/
def add (a b : Vector) : Vector := ⟨a.x + b.x, a.y + b.y, a.z + b.z⟩

/-- Componentwise negation (`-sc` in the source). -/
def neg (a : Vector) : Vector := ⟨-a.x, -a.y, -a.z⟩

/-- Componentwise difference. -/
def sub (a b : Vector) : Vector := ⟨a.x - b.x, a.y - b.y, a.z - b.z⟩

/-- Scalar multiple `c * a`. -/
def smul (c : ℝ) (a : Vector) : Vector := ⟨c * a.x, c * a.y, c * a.z⟩

/-- Division by a scalar, as the source's `vector / length`. -/
def divs (a : Vector) (c : ℝ) : Vector := ⟨a.x / c, a.y / c, a.z / c⟩

/-- `self.dot(other)`. -/
def dot (a b : Vector) : ℝ := a.x * b.x + a.y * b.y + a.z * b.z

/-- `self.length`: `sqrt(self.dot(self))`. -/
def length (a : Vector) : ℝ := Real.sqrt (a.dot a)

/-- `np.cross` of two 3-vectors. -/
def cross (a b : Vector) : Vector :=
  ⟨a.y * b.z - a.z * b.y, a.z * b.x - a.x * b.z, a.x * b.y - a.y * b.x⟩

/-- `Vector.cross_with`. -/
def cross_with (a b : Vector) : Vector := cross a b

/-- `Vector.angle_with` with `precise=False`:
`acos(clip(dot/(|a||b|), -1, 1))`. -/
def angle_with (a b : Vector) : ℝ :=
  Real.arccos (clip (a.dot b / (a.length * b.length)) (-1) 1)

/-- Conversion to an index function for matrix application. -/
def toPt (v : Vector) : Fin 3 → ℝ := ![v.x, v.y, v.z]

/-- Conversion back from an index function. -/
def ofPt (p : Fin 3 → ℝ) : Vector := ⟨p 0, p 1, p 2⟩

/-- `Vector.direction_vector`: a horizontal unit vector perpendicular to
`self`, special-cased at the poles. -/
def direction_vector (v : Vector) : Vector :=
  if |v.z| = 1 then ⟨1, 0, 0⟩
  else
    let d : Vector := ⟨v.y, -v.x, 0⟩
    d.divs d.length

/-- `Vector.dip_vector`: `cross(self/|self|, direction_vector)`. -/
def dip_vector (v : Vector) : Vector :=
  cross (v.divs v.length) (direction_vector v)

/-- `Vector.rejection_matrix`: `eye(3) - outer(self, self)`. -/
def rejection_matrix (v : Vector) : Matrix (Fin 3) (Fin 3) ℝ :=
  1 - Matrix.vecMulVec v.toPt v.toPt

/-- `Vector.get_great_circle`: points `direction_vector*cos t + dip_vector*sin t`
for `t` over `arange(offset, 2*pi+offset, step) % (2*pi)`. -/
def get_great_circle (v : Vector) (step offset : ℝ) : List Vector :=
  (arange offset (2 * Real.pi + offset) step).map (fun θ =>
    let t := pymod θ (2 * Real.pi)
    add (smul (Real.cos t) (direction_vector v)) (smul (Real.sin t) (dip_vector v)))

/-- `Vector.get_small_circle`: both nappes of the cone of half-angle `alpha`
(optionally elliptically modulated by `A`, `B`) about `v`. -/
def get_small_circle (v : Vector) (alpha A B step offset : ℝ) :
    List Vector × List Vector :=
  let sc :=
    if A = 0 ∧ B = 0 then
      (get_great_circle v step offset).map (fun p =>
        add (smul (Real.sin alpha) p) (smul (Real.cos alpha) v))
    else
      List.zipWith (fun p θ =>
          let a := alpha + A * Real.cos (2 * θ) + B * Real.sin (2 * θ)
          add (smul (Real.sin a) p) (smul (Real.cos a) v))
        (get_great_circle v step 0) (arange 0 (2 * Real.pi) step)
  (sc, sc.map neg)

/-- `Vector.arc_to`: the great-circle arc from `a` towards `b`. -/
def arc_to (a b : Vector) (step : ℝ) : List Vector :=
  let n0 := ofPt ((rejection_matrix a).mulVec b.toPt)
  let normal := n0.divs n0.length
  (arange 0 (angle_with a b) step).map (fun θ =>
    add (smul (Real.cos θ) a) (smul (Real.sin θ) normal))

/-- `Vector.attitude`: trend/plunge of the lower-hemisphere representative. -/
def attitude (v : Vector) : ℝ × ℝ :=
  let x := v.x / v.length
  let y := v.y / v.length
  let z := v.z / v.length
  let x' := if z > 0 then -x else x
  let y' := if z > 0 then -y else y
  (pymod (degrees (atan2 x' y')) 360, degrees (Real.arcsin |z|))

end Vector

/-- `dcos_line` for a single trend/plunge pair (degrees). -/
def dcos_line (trend plunge : ℝ) : Vector :=
  ⟨Real.cos (radians plunge) * Real.sin (radians trend),
   Real.cos (radians plunge) * Real.cos (radians trend),
   -Real.sin (radians plunge)⟩

/-- `Vector.from_attitude`. -/
def from_attitude (trend plunge : ℝ) : Vector := dcos_line trend plunge

/-- Python `float()` conversion of a numpy array given as a list of entries:
succeeds only on size-1 arrays; `math.atan2` applies it to its arguments. -/
def floatOfArray : List ℝ → Option ℝ
  | [a] => some a
  | _ => none

/-- `Vector.angle_with` with `precise=True` as the source writes it:
`math.atan2(self.cross_with(other), self.dot(other))`, whose first argument
is the 3-component cross-product array, so the float conversion fails. -/
def angle_with_precise (a b : Vector) : Option ℝ :=
  let c := Vector.cross_with a b
  (floatOfArray [c.x, c.y, c.z]).map (fun s => atan2 s (Vector.dot a b))

/-- Modelled from the spec: the claimed behaviour of `precise=True`,
`atan2(|a × b|, a · b)` with the magnitude of the cross product. -/
def angle_with_precise_claimed (a b : Vector) : ℝ :=
  atan2 (Vector.length (Vector.cross a b)) (Vector.dot a b)

/-- `normalized_cross`: the unit cross product, or the zero vector when the
cross product is zero. -/
def normalized_cross (a b : Vector) : Vector :=
  let c := Vector.cross a b
  let len := Real.sqrt (Vector.dot c c)
  if len > 0 then c.divs len else c

/-- A `VectorSet` is an ordered collection of vectors. -/
def VectorSet := List Vector

/-- `VectorSet.normalized_cross_with`: all pairwise unit cross products,
each flipped to the `z < 0` side when its z-component is not negative. -/
def normalized_cross_with (xs ys : List Vector) : List Vector :=
  xs.flatMap (fun a => ys.map (fun b =>
    let c := normalized_cross a b
    if c.z < 0 then c else c.neg))

/-- The source's `R1` factor (the `rake` rotation, which fixes the y axis). -/
def R1mat (r : ℝ) : Matrix (Fin 3) (Fin 3) ℝ :=
  !![Real.cos r, 0, Real.sin r; 0, 1, 0; -Real.sin r, 0, Real.cos r]

/-- The source's `R2` factor (the `plunge` rotation, which fixes the x axis). -/
def R2mat (p : ℝ) : Matrix (Fin 3) (Fin 3) ℝ :=
  !![1, 0, 0; 0, Real.cos p, Real.sin p; 0, -Real.sin p, Real.cos p]

/-- The source's `R3` factor (the `azimuth` rotation, which fixes the z axis). -/
def R3mat (a : ℝ) : Matrix (Fin 3) (Fin 3) ℝ :=
  !![Real.cos a, Real.sin a, 0; -Real.sin a, Real.cos a, 0; 0, 0, 1]

/-- `build_rotation_matrix(azim, plng, rake) = R3 @ R2 @ R1` after converting
the three angles to radians. -/
def build_rotation_matrix (azim plng rake : ℝ) : Matrix (Fin 3) (Fin 3) ℝ :=
  R3mat (radians azim) * R2mat (radians plng) * R1mat (radians rake)

/-- Modelled from the claim's words: rake about the x axis, then plunge about
the y axis, then azimuth about the z axis (elementary factors shaped as in the
source, but assigned to the axes the claim names). -/
def claim_rotation_matrix (azim plng rake : ℝ) : Matrix (Fin 3) (Fin 3) ℝ :=
  R3mat (radians azim) * R1mat (radians plng) * R2mat (radians rake)

/-- The rotation matrix a `ProjectionBase` stores: `build_rotation_matrix`
of the rotation triple, or the identity when there is none. -/
def rotOf : Option (ℝ × ℝ × ℝ) → Matrix (Fin 3) (Fin 3) ℝ
  | some (a, p, r) => build_rotation_matrix a p r
  | none => 1

/-- `ProjectionBase._pre_direct` on a single point: optional rotation into
the oblique frame, optional antipode flip of positive-z points, and
normalization to unit length. -/
def pre_direct (rotation : Option (ℝ × ℝ × ℝ)) (p : Vector)
    (invert_positive rotate : Bool) : Vector :=
  let q := if rotate && rotation.isSome
    then Vector.ofPt ((rotOf rotation).mulVec p.toPt) else p
  let d := 1 / q.length
  let c := if invert_positive then (if q.z > 0 then (-1 : ℝ) else 1) * d else d
  Vector.smul c q

/-- `ProjectionBase._post_inverse` on a single point: optionally un-rotate via
the inverse of the stored rotation matrix. -/
def post_inverse (rotation : Option (ℝ × ℝ × ℝ)) (v : Vector)
    (rotate : Bool) : Vector :=
  if rotate && rotation.isSome
    then Vector.ofPt ((rotOf rotation)⁻¹.mulVec v.toPt) else v

/-- A projection: the stored rotation together with the concrete forward and
inverse transforms of the subclass. -/
structure ProjectionBase where
  rotation : Option (ℝ × ℝ × ℝ)
  dtr : Vector → ℝ × ℝ
  itr : ℝ × ℝ → Vector

/-- `ProjectionBase.direct` on a single point. -/
def ProjectionBase.direct (P : ProjectionBase) (p : Vector)
    (invert_positive rotate : Bool) : ℝ × ℝ :=
  P.dtr (pre_direct P.rotation p invert_positive rotate)

/-- `ProjectionBase.inverse` on a single point. -/
def ProjectionBase.inverse (P : ProjectionBase) (XY : ℝ × ℝ)
    (rotate : Bool) : Vector :=
  post_inverse P.rotation (P.itr XY) rotate

/-- The `EqualAngle` (stereographic) projection. -/
def EqualAngle (rotation : Option (ℝ × ℝ × ℝ)) : ProjectionBase where
  rotation := rotation
  dtr := fun v => (v.x / (1 - v.z), v.y / (1 - v.z))
  itr := fun XY =>
    ⟨2 * XY.1 / (1 + XY.1 * XY.1 + XY.2 * XY.2),
     2 * XY.2 / (1 + XY.1 * XY.1 + XY.2 * XY.2),
     (-1 + XY.1 * XY.1 + XY.2 * XY.2) / (1 + XY.1 * XY.1 + XY.2 * XY.2)⟩

/-- The `Orthographic` projection. -/
def Orthographic (rotation : Option (ℝ × ℝ × ℝ)) : ProjectionBase where
  rotation := rotation
  dtr := fun v => (v.x, v.y)
  itr := fun XY => ⟨XY.1, XY.2, Real.sqrt (1 - XY.1 * XY.1 - XY.2 * XY.2)⟩

/-- The `EqualArea` (Schmidt-Lambert) projection, radius shrunk to 1. -/
def EqualArea (rotation : Option (ℝ × ℝ × ℝ)) : ProjectionBase where
  rotation := rotation
  dtr := fun v =>
    (v.x * Real.sqrt (1 / (1 - v.z)), v.y * Real.sqrt (1 / (1 - v.z)))
  itr := fun XY =>
    let X := XY.1 * Real.sqrt 2
    let Y := XY.2 * Real.sqrt 2
    ⟨Real.sqrt (1 - (X * X + Y * Y) / 4) * X,
     Real.sqrt (1 - (X * X + Y * Y) / 4) * Y,
     -1 + (X * X + Y * Y) / 2⟩

/-- First endpoint of a segment (`segment[0]`). -/
def seg_head (s : List Vector) : Vector := s.headD Vector.zero

/-- Last endpoint of a segment (`segment[-1]`). -/
def seg_last (s : List Vector) : Vector := s.getLastD Vector.zero

/-- `ProjectionPlot._join_segments`: pop the first segment, try to merge it
with the next in the four endpoint orientations, appending the (possibly
merged) segment at the back; stop at the first pair that cannot merge, or
when a single segment remains. -/
def join_segments (tol : ℝ) : List (List Vector) → List (List Vector)
  | s :: t :: rest =>
    if |Vector.angle_with (seg_last s) (seg_head t)| < tol then
      join_segments tol (rest ++ [s ++ t])
    else if |Vector.angle_with (seg_head s) (seg_last t)| < tol then
      join_segments tol (rest ++ [t ++ s])
    else if |Vector.angle_with (seg_last s) (seg_last t)| < tol then
      join_segments tol (rest ++ [s ++ t.reverse])
    else if |Vector.angle_with (seg_head s) (seg_head t)| < tol then
      join_segments tol (rest ++ [t ++ s.reverse])
    else t :: (rest ++ [s])
  | segs => segs
termination_by segs => segs.length
decreasing_by all_goals simp [List.length_append]

/-- `sample_uniform` with the underlying Gaussian draws made explicit:
each draw is normalized to the unit sphere. -/
def sample_uniform (draws : List Vector) : List Vector :=
  draws.map (fun s => s.divs s.length)

/-- `sample_fisher` with the underlying random draws made explicit: each
pair of a uniform azimuth `θ` and a von Mises deviation `α` is composed in
the mean vector's local frame. -/
def sample_fisher (mean_vector : Vector) (theta_sample alpha_sample : List ℝ) :
    List Vector :=
  List.zipWith (fun θ α =>
      Vector.add
        (Vector.smul (Real.sin α)
          (Vector.add (Vector.smul (Real.cos θ) mean_vector.direction_vector)
            (Vector.smul (Real.sin θ) mean_vector.dip_vector)))
        (Vector.smul (Real.cos α) mean_vector))
    theta_sample alpha_sample

/-! ## Helper lemmas -/

namespace Vector

theorem ext_xyz {a b : Vector} (hx : a.x = b.x) (hy : a.y = b.y)
    (hz : a.z = b.z) : a = b := by
  cases a; cases b; simp_all

theorem dot_self_nonneg (v : Vector) : 0 ≤ v.dot v := by
  simp only [dot]; nlinarith [sq_nonneg v.x, sq_nonneg v.y, sq_nonneg v.z]

theorem eq_zero_of_dot_self (v : Vector) (h : v.dot v = 0) : v = zero := by
  simp only [dot] at h
  have hx : v.x = 0 := by nlinarith [sq_nonneg v.x, sq_nonneg v.y, sq_nonneg v.z]
  have hy : v.y = 0 := by nlinarith [sq_nonneg v.x, sq_nonneg v.y, sq_nonneg v.z]
  have hz : v.z = 0 := by nlinarith [sq_nonneg v.x, sq_nonneg v.y, sq_nonneg v.z]
  exact ext_xyz hx hy hz

theorem dot_self_pos (v : Vector) (hv : v ≠ zero) : 0 < v.dot v := by
  rcases lt_or_eq_of_le (dot_self_nonneg v) with h | h
  · exact h
  · exact absurd (eq_zero_of_dot_self v h.symm) hv

theorem length_nonneg (v : Vector) : 0 ≤ v.length := Real.sqrt_nonneg _

theorem length_pos (v : Vector) (hv : v ≠ zero) : 0 < v.length :=
  Real.sqrt_pos.mpr (dot_self_pos v hv)

theorem length_of_unit {v : Vector} (hv : v.dot v = 1) : v.length = 1 := by
  rw [length, hv, Real.sqrt_one]

theorem dot_divs (v : Vector) (c : ℝ) :
    (v.divs c).dot (v.divs c) = v.dot v / c ^ 2 := by
  simp only [dot, divs]; ring

theorem length_divs (v : Vector) (c : ℝ) :
    (v.divs c).length = v.length / |c| := by
  rw [length, dot_divs, Real.sqrt_div (dot_self_nonneg v), Real.sqrt_sq_eq_abs,
    length]

theorem length_divs_length (v : Vector) (hv : v ≠ zero) :
    (v.divs v.length).length = 1 := by
  rw [length_divs, abs_of_pos (length_pos v hv),
    div_self (ne_of_gt (length_pos v hv))]

theorem divs_one (v : Vector) : v.divs 1 = v := by
  cases v; simp [divs]

theorem dot_expand (a b : ℝ) (u w : Vector) :
    (add (smul a u) (smul b w)).dot (add (smul a u) (smul b w)) =
      a ^ 2 * u.dot u + 2 * a * b * u.dot w + b ^ 2 * w.dot w := by
  simp only [dot, add, smul]; ring

theorem dot_add_smul_left (a b : ℝ) (u w r : Vector) :
    (add (smul a u) (smul b w)).dot r = a * u.dot r + b * w.dot r := by
  simp only [dot, add, smul]; ring

theorem dot_cross_left (a b : Vector) : (cross a b).dot a = 0 := by
  simp only [dot, cross]; ring

theorem dot_cross_right (a b : Vector) : (cross a b).dot b = 0 := by
  simp only [dot, cross]; ring

theorem dot_cross_self (a b : Vector) :
    (cross a b).dot (cross a b) = a.dot a * b.dot b - (a.dot b) ^ 2 := by
  simp only [dot, cross]; ring

theorem dot_comm (a b : Vector) : a.dot b = b.dot a := by
  simp only [dot]; ring

/-- A `cos/sin` combination of two orthonormal vectors is a unit vector. -/
theorem dot_combo_unit {u w : Vector} (hu : u.dot u = 1) (hw : w.dot w = 1)
    (huw : u.dot w = 0) (a b : ℝ) (hab : a ^ 2 + b ^ 2 = 1) :
    (add (smul a u) (smul b w)).dot (add (smul a u) (smul b w)) = 1 := by
  rw [dot_expand, hu, hw, huw]; ring_nf; linarith [hab]

theorem clip_of_mem {v : ℝ} (h1 : -1 ≤ v) (h2 : v ≤ 1) : clip v (-1) 1 = v := by
  rw [clip, max_eq_left h1, min_eq_left h2]

/-- For a unit vector off the pole case, the horizontal part is nonzero. -/
theorem horizontal_dot_pos {v : Vector} (hv : v.dot v = 1) (hz : ¬ |v.z| = 1) :
    0 < v.y * v.y + v.x * v.x := by
  rcases lt_or_eq_of_le (by nlinarith [sq_nonneg v.x, sq_nonneg v.y] :
      (0 : ℝ) ≤ v.y * v.y + v.x * v.x) with h | h
  · exact h
  · exfalso
    apply hz
    have hzz : v.z ^ 2 = 1 := by simp only [dot] at hv; nlinarith
    have habs : |v.z| = Real.sqrt (v.z ^ 2) := (Real.sqrt_sq_eq_abs v.z).symm
    rw [habs, hzz, Real.sqrt_one]

theorem direction_vector_unit {v : Vector} (hv : v.dot v = 1) :
    (direction_vector v).dot (direction_vector v) = 1 := by
  rw [direction_vector]
  split
  · simp [dot]
  · rename_i hz
    have hpos := horizontal_dot_pos hv hz
    have hd : (⟨v.y, -v.x, 0⟩ : Vector).dot ⟨v.y, -v.x, 0⟩ =
        v.y * v.y + v.x * v.x := by simp only [dot]; ring
    have hne : (⟨v.y, -v.x, 0⟩ : Vector) ≠ zero := by
      intro h
      rw [h] at hd
      simp [dot, zero] at hd
      nlinarith [hpos, hd]
    have := length_divs_length (⟨v.y, -v.x, 0⟩ : Vector) hne
    have hnn := dot_self_nonneg ((⟨v.y, -v.x, 0⟩ : Vector).divs
      (⟨v.y, -v.x, 0⟩ : Vector).length)
    rw [length] at this
    nlinarith [Real.sq_sqrt hnn, this]

theorem direction_vector_dot {v : Vector} (hv : v.dot v = 1) :
    (direction_vector v).dot v = 0 := by
  rw [direction_vector]
  split
  · rename_i hz
    have hzz : v.z ^ 2 = 1 := by
      have := sq_abs v.z; rw [hz] at this; nlinarith
    have hx : v.x = 0 := by
      simp only [dot] at hv; nlinarith [sq_nonneg v.x, sq_nonneg v.y]
    simp [dot, hx]
  · simp [dot, divs]; ring

theorem dip_vector_eq {v : Vector} (hv : v.dot v = 1) :
    v.dip_vector = cross v (direction_vector v) := by
  rw [dip_vector, length_of_unit hv, divs_one]

theorem dip_vector_unit {v : Vector} (hv : v.dot v = 1) :
    (dip_vector v).dot (dip_vector v) = 1 := by
  rw [dip_vector_eq hv, dot_cross_self, hv, direction_vector_unit hv,
    dot_comm v (direction_vector v), direction_vector_dot hv]
  norm_num

theorem dip_vector_dot_self {v : Vector} (hv : v.dot v = 1) :
    (dip_vector v).dot v = 0 := by
  rw [dip_vector_eq hv, dot_cross_left]

theorem dip_vector_dot_direction {v : Vector} (hv : v.dot v = 1) :
    (dip_vector v).dot (direction_vector v) = 0 := by
  rw [dip_vector_eq hv, dot_cross_right]

/-- Every point of `get_great_circle` of a unit vector is a unit vector
perpendicular to the axis. -/
theorem get_great_circle_mem {v : Vector} (hv : v.dot v = 1) {step offset : ℝ}
    {p : Vector} (hp : p ∈ get_great_circle v step offset) :
    p.dot p = 1 ∧ p.dot v = 0 := by
  rw [get_great_circle] at hp
  simp only [List.mem_map] at hp
  obtain ⟨θ, -, rfl⟩ := hp
  constructor
  · exact dot_combo_unit (direction_vector_unit hv) (dip_vector_unit hv)
      (by rw [dot_comm]; exact dip_vector_dot_direction hv) _ _
      (by rw [← Real.sin_sq_add_cos_sq (pymod θ (2 * Real.pi))]; ring)
  · rw [dot_add_smul_left, direction_vector_dot hv, dip_vector_dot_self hv]
    ring

theorem toPt_ofPt (f : Fin 3 → ℝ) : (ofPt f).toPt = f := by
  funext i
  fin_cases i <;> rfl

theorem dot_toPt (a b : Vector) : a.toPt ⬝ᵥ b.toPt = a.dot b := by
  simp [toPt, dot, Matrix.dotProduct, Fin.sum_univ_three]

theorem dot_ofPt (f g : Fin 3 → ℝ) : (ofPt f).dot (ofPt g) = f ⬝ᵥ g := by
  simp [ofPt, dot, Matrix.dotProduct, Fin.sum_univ_three]

end Vector

theorem transpose_fin_three (a b c d e f g h i : ℝ) :
    (!![a, b, c; d, e, f; g, h, i])ᵀ = !![a, d, g; b, e, h; c, f, i] := by
  ext i j
  fin_cases i <;> fin_cases j <;> rfl

theorem R1mat_orthogonal (r : ℝ) : (R1mat r)ᵀ * R1mat r = 1 := by
  rw [R1mat, transpose_fin_three, Matrix.mul_fin_three, Matrix.one_fin_three]
  congr 1
  apply Matrix.vec3_eq <;> apply Matrix.vec3_eq <;>
    nlinarith [Real.sin_sq_add_cos_sq r]

theorem R2mat_orthogonal (p : ℝ) : (R2mat p)ᵀ * R2mat p = 1 := by
  rw [R2mat, transpose_fin_three, Matrix.mul_fin_three, Matrix.one_fin_three]
  congr 1
  apply Matrix.vec3_eq <;> apply Matrix.vec3_eq <;>
    nlinarith [Real.sin_sq_add_cos_sq p]

theorem R3mat_orthogonal (a : ℝ) : (R3mat a)ᵀ * R3mat a = 1 := by
  rw [R3mat, transpose_fin_three, Matrix.mul_fin_three, Matrix.one_fin_three]
  congr 1
  apply Matrix.vec3_eq <;> apply Matrix.vec3_eq <;>
    nlinarith [Real.sin_sq_add_cos_sq a]

theorem build_rotation_matrix_orthogonal (azim plng rake : ℝ) :
    (build_rotation_matrix azim plng rake)ᵀ * build_rotation_matrix azim plng rake
      = 1 := by
  rw [build_rotation_matrix]
  rw [Matrix.transpose_mul, Matrix.transpose_mul]
  have h3 := R3mat_orthogonal (radians azim)
  have h2 := R2mat_orthogonal (radians plng)
  have h1 := R1mat_orthogonal (radians rake)
  calc (R1mat (radians rake))ᵀ *
        ((R2mat (radians plng))ᵀ * (R3mat (radians azim))ᵀ) *
        (R3mat (radians azim) * R2mat (radians plng) * R1mat (radians rake))
      = (R1mat (radians rake))ᵀ * ((R2mat (radians plng))ᵀ *
          (((R3mat (radians azim))ᵀ * R3mat (radians azim)) *
            R2mat (radians plng)) * R1mat (radians rake)) := by
        simp only [Matrix.mul_assoc]
    _ = 1 := by rw [h3, Matrix.one_mul, h2, Matrix.one_mul, h1]

theorem rotOf_orthogonal (rotation : Option (ℝ × ℝ × ℝ)) :
    (rotOf rotation)ᵀ * rotOf rotation = 1 := by
  match rotation with
  | none => simp [rotOf]
  | some (a, p, r) => exact build_rotation_matrix_orthogonal a p r

theorem mulVec_dot_self {M : Matrix (Fin 3) (Fin 3) ℝ} (h : Mᵀ * M = 1)
    (w : Fin 3 → ℝ) : (M *ᵥ w) ⬝ᵥ (M *ᵥ w) = w ⬝ᵥ w := by
  rw [Matrix.dotProduct_mulVec, ← Matrix.mulVec_transpose,
    Matrix.mulVec_mulVec, h, Matrix.one_mulVec]

namespace Vector

theorem length_smul (c : ℝ) (v : Vector) :
    (smul c v).length = |c| * v.length := by
  rw [length, length]
  have : (smul c v).dot (smul c v) = c ^ 2 * v.dot v := by
    simp only [dot, smul]; ring
  rw [this, Real.sqrt_mul (sq_nonneg c), Real.sqrt_sq_eq_abs]

theorem dot_neg_self (v : Vector) : (neg v).dot (neg v) = v.dot v := by
  simp only [dot, neg]; ring

theorem dot_divs_left (a : Vector) (c : ℝ) (b : Vector) :
    (a.divs c).dot b = a.dot b / c := by
  simp only [dot, divs]; ring

theorem sub_eq_zero_iff (a b : Vector) : sub a b = zero ↔ a = b := by
  cases a; cases b; simp [sub, zero, sub_eq_zero]

theorem angle_with_unit {v p : Vector} (hv : v.dot v = 1) (hp : p.dot p = 1) :
    angle_with v p = Real.arccos (clip (v.dot p) (-1) 1) := by
  rw [angle_with, length_of_unit hv, length_of_unit hp]
  norm_num

/-- `(I - v vᵀ) w = w - (v·w) v`, the plane rejection. -/
theorem rejection_mulVec (v w : Vector) :
    ofPt ((rejection_matrix v).mulVec w.toPt) =
      sub w (smul (v.dot w) v) := by
  apply ext_xyz <;>
    simp [rejection_matrix, ofPt, toPt, Matrix.mulVec, Matrix.vecMulVec,
      Matrix.dotProduct, Fin.sum_univ_three, sub, smul, dot,
      Matrix.sub_apply, Matrix.one_apply] <;> ring

end Vector

theorem mem_zipWith {α β γ : Type} {f : α → β → γ} {l1 : List α}
    {l2 : List β} {c : γ} (h : c ∈ List.zipWith f l1 l2) :
    ∃ a b, c = f a b := by
  induction l1 generalizing l2 with
  | nil => simp at h
  | cons x xs ih =>
    cases l2 with
    | nil => simp at h
    | cons y ys =>
      rw [List.zipWith_cons_cons, List.mem_cons] at h
      rcases h with h | h
      · exact ⟨x, y, h⟩
      · exact ih h

/-- The second nappe returned by `get_small_circle` is the pointwise
negation of the first. -/
theorem get_small_circle_snd (v : Vector) (alpha A B step offset : ℝ) :
    (Vector.get_small_circle v alpha A B step offset).2 =
      ((Vector.get_small_circle v alpha A B step offset).1).map Vector.neg := rfl

/-- In the plain branch the first nappe is a map over the great circle. -/
theorem get_small_circle_zero_fst (v : Vector) (alpha step offset : ℝ) :
    (Vector.get_small_circle v alpha 0 0 step offset).1 =
      (Vector.get_great_circle v step offset).map (fun p =>
        Vector.add (Vector.smul (Real.sin alpha) p)
          (Vector.smul (Real.cos alpha) v)) := by
  simp [Vector.get_small_circle]

/-- The great circle at zero offset is a map over `arange 0 2π`. -/
theorem get_great_circle_zero_offset (v : Vector) (step : ℝ) :
    Vector.get_great_circle v step 0 =
      (arange 0 (2 * Real.pi) step).map (fun θ =>
        let t := pymod θ (2 * Real.pi)
        Vector.add (Vector.smul (Real.cos t) v.direction_vector)
          (Vector.smul (Real.sin t) v.dip_vector)) := by
  rw [Vector.get_great_circle, add_zero]

/-- In the modulated branch the first nappe is a map over `arange 0 2π`. -/
theorem get_small_circle_mod_fst (v : Vector) (alpha A B step offset : ℝ)
    (h : ¬(A = 0 ∧ B = 0)) :
    (Vector.get_small_circle v alpha A B step offset).1 =
      (arange 0 (2 * Real.pi) step).map (fun θ =>
        let t := pymod θ (2 * Real.pi)
        let g := Vector.add (Vector.smul (Real.cos t) v.direction_vector)
          (Vector.smul (Real.sin t) v.dip_vector)
        let a := alpha + A * Real.cos (2 * θ) + B * Real.sin (2 * θ)
        Vector.add (Vector.smul (Real.sin a) g) (Vector.smul (Real.cos a) v)) := by
  simp only [Vector.get_small_circle, if_neg h, get_great_circle_zero_offset]
  rw [List.zipWith_map_left, List.zipWith_same]

/-- Every point of either nappe of `Vector.get_small_circle` of a unit axis is a
sine/cosine combination of a unit vector perpendicular to the axis and the
axis itself. -/
theorem get_small_circle_fst_shape {v : Vector} (hv : v.dot v = 1)
    (alpha A B step offset : ℝ) {p : Vector}
    (hp : p ∈ (Vector.get_small_circle v alpha A B step offset).1) :
    ∃ a : ℝ, ∃ g : Vector, g.dot g = 1 ∧ g.dot v = 0 ∧
      p = Vector.add (Vector.smul (Real.sin a) g) (Vector.smul (Real.cos a) v) := by
  by_cases hAB : A = 0 ∧ B = 0
  · obtain ⟨hA, hB⟩ := hAB
    subst hA
    subst hB
    rw [get_small_circle_zero_fst] at hp
    simp only [List.mem_map] at hp
    obtain ⟨g, hg, rfl⟩ := hp
    obtain ⟨hg1, hg2⟩ := Vector.get_great_circle_mem hv hg
    exact ⟨alpha, g, hg1, hg2, rfl⟩
  · rw [get_small_circle_mod_fst v alpha A B step offset hAB] at hp
    simp only [List.mem_map] at hp
    obtain ⟨θ, hθ, rfl⟩ := hp
    refine ⟨alpha + A * Real.cos (2 * θ) + B * Real.sin (2 * θ),
      Vector.add (Vector.smul (Real.cos (pymod θ (2 * Real.pi))) v.direction_vector)
        (Vector.smul (Real.sin (pymod θ (2 * Real.pi))) v.dip_vector), ?_, ?_, rfl⟩
    · exact Vector.dot_combo_unit (Vector.direction_vector_unit hv)
        (Vector.dip_vector_unit hv)
        (by rw [Vector.dot_comm]; exact Vector.dip_vector_dot_direction hv) _ _
        (by rw [← Real.sin_sq_add_cos_sq (pymod θ (2 * Real.pi))]; ring)
    · rw [Vector.dot_add_smul_left, Vector.direction_vector_dot hv,
        Vector.dip_vector_dot_self hv]
      ring

/-! ## Claims -/

/-- Claim C3: for every unit axis vector and every `alpha` in `(0, π)`, with
`A = B = 0`, every point of the first (upper-nappe) sequence returned by
`get_small_circle` is at angle `alpha` from the axis, and the second returned
sequence is the pointwise negation of the first. -/
theorem C3_small_circle_membership (v : Vector) (hv : v.dot v = 1)
    (alpha step offset : ℝ) (h1 : 0 < alpha) (h2 : alpha < Real.pi) :
    (∀ p ∈ (Vector.get_small_circle v alpha 0 0 step offset).1,
      Vector.angle_with v p = alpha) ∧
    (Vector.get_small_circle v alpha 0 0 step offset).2 =
      ((Vector.get_small_circle v alpha 0 0 step offset).1).map Vector.neg := by
  refine ⟨fun p hp => ?_, get_small_circle_snd v alpha 0 0 step offset⟩
  rw [get_small_circle_zero_fst] at hp
  simp only [List.mem_map] at hp
  obtain ⟨g, hg, rfl⟩ := hp
  obtain ⟨hg1, hg2⟩ := Vector.get_great_circle_mem hv hg
  have hp1 : ((Vector.smul (Real.sin alpha) g).add
      (Vector.smul (Real.cos alpha) v)).dot
      ((Vector.smul (Real.sin alpha) g).add
        (Vector.smul (Real.cos alpha) v)) = 1 :=
    Vector.dot_combo_unit hg1 hv hg2 _ _ (Real.sin_sq_add_cos_sq alpha)
  have hdot : v.dot ((Vector.smul (Real.sin alpha) g).add
      (Vector.smul (Real.cos alpha) v)) = Real.cos alpha := by
    rw [Vector.dot_comm, Vector.dot_add_smul_left, hg2, hv]
    ring
  rw [Vector.angle_with_unit hv hp1, hdot,
    Vector.clip_of_mem (Real.neg_one_le_cos alpha) (Real.cos_le_one alpha),
    Real.arccos_cos h1.le h2.le]

/-- Witness for C3 at the axis `(0,0,1)` and `alpha = π/2`. -/
theorem C3_small_circle_membership_w :
    (∀ p ∈ (Vector.get_small_circle ⟨0, 0, 1⟩ (Real.pi / 2) 0 0 1 0).1,
      Vector.angle_with ⟨0, 0, 1⟩ p = Real.pi / 2) ∧
    (Vector.get_small_circle ⟨0, 0, 1⟩ (Real.pi / 2) 0 0 1 0).2 =
      ((Vector.get_small_circle ⟨0, 0, 1⟩ (Real.pi / 2) 0 0 1 0).1).map
        Vector.neg :=
  C3_small_circle_membership ⟨0, 0, 1⟩ (by norm_num [Vector.dot])
    (Real.pi / 2) 1 0 (by positivity) (by linarith [Real.pi_pos])

/-- Claim C9: every vector returned by `get_great_circle`, `get_small_circle`,
`arc_to` (for a non-parallel target), `sample_uniform` and `sample_fisher`
(randomness modelled by explicit draw lists, Gaussian draws nonzero) has
magnitude 1. -/
theorem C9_unit_sphere (v w m : Vector) (hv : v.dot v = 1)
    (hw : ∀ c : ℝ, w ≠ Vector.smul c v) (hm : m.dot m = 1)
    (draws : List Vector) (hd : ∀ s ∈ draws, s ≠ Vector.zero)
    (theta_sample alpha_sample : List ℝ) (alpha A B step offset : ℝ) :
    (∀ p ∈ Vector.get_great_circle v step offset, p.length = 1) ∧
    (∀ p ∈ (Vector.get_small_circle v alpha A B step offset).1, p.length = 1) ∧
    (∀ p ∈ (Vector.get_small_circle v alpha A B step offset).2, p.length = 1) ∧
    (∀ p ∈ Vector.arc_to v w step, p.length = 1) ∧
    (∀ p ∈ sample_uniform draws, p.length = 1) ∧
    (∀ p ∈ sample_fisher m theta_sample alpha_sample, p.length = 1) := by
  refine ⟨fun p hp => ?_, fun p hp => ?_, fun p hp => ?_, fun p hp => ?_,
    fun p hp => ?_, fun p hp => ?_⟩
  · exact Vector.length_of_unit (Vector.get_great_circle_mem hv hp).1
  · obtain ⟨a, g, hg1, hg2, rfl⟩ :=
      get_small_circle_fst_shape hv alpha A B step offset hp
    exact Vector.length_of_unit
      (Vector.dot_combo_unit hg1 hv hg2 _ _ (Real.sin_sq_add_cos_sq a))
  · rw [get_small_circle_snd] at hp
    simp only [List.mem_map] at hp
    obtain ⟨q, hq, rfl⟩ := hp
    obtain ⟨a, g, hg1, hg2, rfl⟩ :=
      get_small_circle_fst_shape hv alpha A B step offset hq
    rw [Vector.length, Vector.dot_neg_self]
    exact Vector.length_of_unit
      (Vector.dot_combo_unit hg1 hv hg2 _ _ (Real.sin_sq_add_cos_sq a))
  · rw [Vector.arc_to] at hp
    simp only [List.mem_map] at hp
    obtain ⟨θ, -, rfl⟩ := hp
    rw [Vector.rejection_mulVec] at *
    set n0 := Vector.sub w (Vector.smul (v.dot w) v) with hn0
    have hn0ne : n0 ≠ Vector.zero := by
      intro h
      exact hw (v.dot w) ((Vector.sub_eq_zero_iff w _).mp h)
    have hv' : v.x * v.x + v.y * v.y + v.z * v.z = 1 := hv
    have hnv : n0.dot v = 0 := by
      rw [hn0]
      show (w.sub (Vector.smul (v.x * w.x + v.y * w.y + v.z * w.z) v)).dot v = 0
      simp only [Vector.dot, Vector.sub, Vector.smul]
      linear_combination (-(v.x * w.x + v.y * w.y + v.z * w.z)) * hv'
    have hnlen : (n0.divs n0.length).dot (n0.divs n0.length) = 1 := by
      have := Vector.length_divs_length n0 hn0ne
      rw [Vector.length] at this
      nlinarith [Real.sq_sqrt (Vector.dot_self_nonneg (n0.divs n0.length)), this]
    have hnv2 : v.dot (n0.divs n0.length) = 0 := by
      rw [Vector.dot_comm, Vector.dot_divs_left, hnv, zero_div]
    exact Vector.length_of_unit
      (Vector.dot_combo_unit hv hnlen hnv2 _ _
        (by rw [add_comm]; exact Real.sin_sq_add_cos_sq θ))
  · rw [sample_uniform] at hp
    simp only [List.mem_map] at hp
    obtain ⟨s, hs, rfl⟩ := hp
    exact Vector.length_divs_length s (hd s hs)
  · obtain ⟨θ, a, rfl⟩ := mem_zipWith hp
    have hqu : ((Vector.smul (Real.cos θ) m.direction_vector).add
        (Vector.smul (Real.sin θ) m.dip_vector)).dot
        ((Vector.smul (Real.cos θ) m.direction_vector).add
          (Vector.smul (Real.sin θ) m.dip_vector)) = 1 :=
      Vector.dot_combo_unit (Vector.direction_vector_unit hm)
        (Vector.dip_vector_unit hm)
        (by rw [Vector.dot_comm]; exact Vector.dip_vector_dot_direction hm) _ _
        (by rw [add_comm]; exact Real.sin_sq_add_cos_sq θ)
    have hqm : ((Vector.smul (Real.cos θ) m.direction_vector).add
        (Vector.smul (Real.sin θ) m.dip_vector)).dot m = 0 := by
      rw [Vector.dot_add_smul_left, Vector.direction_vector_dot hm,
        Vector.dip_vector_dot_self hm]
      ring
    exact Vector.length_of_unit
      (Vector.dot_combo_unit hqu hm hqm _ _ (Real.sin_sq_add_cos_sq a))

/-- Witness for C9 at concrete axis, target, mean and draws. -/
theorem C9_unit_sphere_w :
    (∀ p ∈ Vector.get_great_circle ⟨0, 0, 1⟩ 1 0, p.length = 1) ∧
    (∀ p ∈ (Vector.get_small_circle ⟨0, 0, 1⟩ 1 0 0 1 0).1, p.length = 1) ∧
    (∀ p ∈ (Vector.get_small_circle ⟨0, 0, 1⟩ 1 0 0 1 0).2, p.length = 1) ∧
    (∀ p ∈ Vector.arc_to ⟨0, 0, 1⟩ ⟨1, 0, 0⟩ 1, p.length = 1) ∧
    (∀ p ∈ sample_uniform [⟨1, 0, 0⟩], p.length = 1) ∧
    (∀ p ∈ sample_fisher ⟨0, 0, 1⟩ [0] [0], p.length = 1) :=
  C9_unit_sphere ⟨0, 0, 1⟩ ⟨1, 0, 0⟩ ⟨0, 0, 1⟩
    (by norm_num [Vector.dot])
    (by
      intro c h
      have hx := congrArg Vector.x h
      simp [Vector.smul] at hx)
    (by norm_num [Vector.dot])
    [⟨1, 0, 0⟩]
    (by
      intro s hs
      simp only [List.mem_singleton] at hs
      subst hs
      intro h
      have hx := congrArg Vector.x h
      simp [Vector.zero] at hx)
    [0] [0] 1 0 0 1 0

/-- Claim C10: when `A ≠ 0` or `B ≠ 0`, the `offset` argument of
`get_small_circle` has no effect: the elliptical-modulation branch always
parameterizes from 0 to 2π. -/
theorem C10_offset_unused (v : Vector) (alpha A B step o1 o2 : ℝ)
    (h : A ≠ 0 ∨ B ≠ 0) :
    Vector.get_small_circle v alpha A B step o1 =
      Vector.get_small_circle v alpha A B step o2 := by
  have hAB : ¬(A = 0 ∧ B = 0) := by
    rintro ⟨rfl, rfl⟩
    rcases h with h | h <;> exact h rfl
  simp only [Vector.get_small_circle, if_neg hAB]

/-- Witness for C10 at `A = 1`, offsets 0 and 2. -/
theorem C10_offset_unused_w :
    Vector.get_small_circle ⟨0, 0, 1⟩ 1 1 0 1 0 =
      Vector.get_small_circle ⟨0, 0, 1⟩ 1 1 0 1 2 :=
  C10_offset_unused ⟨0, 0, 1⟩ 1 1 0 1 0 2 (Or.inl one_ne_zero)

/-- Claim C4 (code bug): `angle_with(other, precise=True)` is claimed to
return `atan2(|a × b|, a · b)`, but the source passes the 3-component
cross-product array itself to `math.atan2`, whose float conversion fails
(TypeError); at `a = (1,0,0)`, `b = (0,1,0)` the code errors while the
claimed value is `π/2`. -/
theorem C4_precise_angle_error :
    angle_with_precise ⟨1, 0, 0⟩ ⟨0, 1, 0⟩ = none ∧
    angle_with_precise_claimed ⟨1, 0, 0⟩ ⟨0, 1, 0⟩ = Real.pi / 2 := by
  constructor
  · rfl
  · have hc : Vector.cross ⟨1, 0, 0⟩ ⟨0, 1, 0⟩ = ⟨0, 0, 1⟩ := by
      simp [Vector.cross]
    have hl : Vector.length ⟨0, 0, 1⟩ = 1 := by
      rw [Vector.length]
      norm_num [Vector.dot]
    rw [angle_with_precise_claimed, hc, hl]
    have hd : Vector.dot ⟨1, 0, 0⟩ ⟨0, 1, 0⟩ = 0 := by norm_num [Vector.dot]
    rw [hd, atan2]
    have : (⟨0, 1⟩ : ℂ) = Complex.I := Complex.ext rfl rfl
    rw [this, Complex.arg_I]

/-- Scaling by the sign-flipped reciprocal length yields a unit vector on
the `z ≤ 0` side. -/
theorem smul_flip_unit (q : Vector) (hq : q ≠ Vector.zero) :
    (Vector.smul ((if q.z > 0 then (-1 : ℝ) else 1) * (1 / q.length)) q).length
        = 1 ∧
    (Vector.smul ((if q.z > 0 then (-1 : ℝ) else 1) * (1 / q.length)) q).z
        ≤ 0 := by
  have hL := Vector.length_pos q hq
  constructor
  · rw [Vector.length_smul, abs_mul]
    have h1 : |if q.z > 0 then (-1 : ℝ) else 1| = 1 := by split <;> norm_num
    rw [h1, one_mul, abs_of_pos (by positivity : (0 : ℝ) < 1 / q.length)]
    field_simp
  · show (if q.z > 0 then (-1 : ℝ) else 1) * (1 / q.length) * q.z ≤ 0
    have hd : 0 < 1 / q.length := by positivity
    split
    · rename_i h
      nlinarith
    · rename_i h
      push_neg at h
      nlinarith

/-- Claim C8: with `invert_positive=True` (any rotation setting), the
preprocessing of `direct` sends every nonzero point to a unit-magnitude
point with `z ≤ 0`. -/
theorem C8_pre_direct_canonical (rotation : Option (ℝ × ℝ × ℝ)) (p : Vector)
    (rotate : Bool) (hp : p ≠ Vector.zero) :
    (pre_direct rotation p true rotate).length = 1 ∧
    (pre_direct rotation p true rotate).z ≤ 0 := by
  have form : pre_direct rotation p true rotate =
      Vector.smul
        ((if (if rotate && rotation.isSome
              then Vector.ofPt ((rotOf rotation).mulVec p.toPt) else p).z > 0
            then (-1 : ℝ) else 1) *
          (1 / (if rotate && rotation.isSome
              then Vector.ofPt ((rotOf rotation).mulVec p.toPt) else p).length))
        (if rotate && rotation.isSome
          then Vector.ofPt ((rotOf rotation).mulVec p.toPt) else p) := rfl
  rw [form]
  apply smul_flip_unit
  intro h
  have hqq : (if rotate && rotation.isSome
      then Vector.ofPt ((rotOf rotation).mulVec p.toPt) else p).dot
      (if rotate && rotation.isSome
        then Vector.ofPt ((rotOf rotation).mulVec p.toPt) else p) =
      p.dot p := by
    split
    · rw [Vector.dot_ofPt, mulVec_dot_self (rotOf_orthogonal rotation),
        Vector.dot_toPt]
    · rfl
  rw [h] at hqq
  simp only [Vector.zero, Vector.dot] at hqq
  norm_num at hqq
  exact absurd hqq.symm (ne_of_gt (Vector.dot_self_pos p hp))

/-- Witness for C8 with a rotation present, at `p = (0,0,1)`. -/
theorem C8_pre_direct_canonical_w :
    (pre_direct (some (30, 40, 50)) ⟨0, 0, 1⟩ true true).length = 1 ∧
    (pre_direct (some (30, 40, 50)) ⟨0, 0, 1⟩ true true).z ≤ 0 :=
  C8_pre_direct_canonical (some (30, 40, 50)) ⟨0, 0, 1⟩ true
    (by
      intro h
      have hz := congrArg Vector.z h
      simp [Vector.zero] at hz)

/-- Claim C7 (amended): `build_rotation_matrix` is orthonormal and is the
composition, in this fixed order, of the rake rotation about the **y** axis
first, then the plunge rotation about the **x** axis, then the azimuth
rotation about the z axis (the claim's assignment of rake to x and plunge
to y is swapped relative to the code). -/
theorem C7_rotation_matrix (azim plng rake : ℝ) :
    (build_rotation_matrix azim plng rake)ᵀ *
        build_rotation_matrix azim plng rake = 1 ∧
    build_rotation_matrix azim plng rake =
      R3mat (radians azim) * R2mat (radians plng) * R1mat (radians rake) ∧
    R1mat (radians rake) *ᵥ ![0, 1, 0] = ![0, 1, 0] ∧
    R2mat (radians plng) *ᵥ ![1, 0, 0] = ![1, 0, 0] ∧
    R3mat (radians azim) *ᵥ ![0, 0, 1] = ![0, 0, 1] := by
  refine ⟨build_rotation_matrix_orthogonal azim plng rake, rfl, ?_, ?_, ?_⟩
  · funext i
    fin_cases i <;>
      simp [R1mat, Matrix.mulVec, Matrix.dotProduct, Fin.sum_univ_three]
  · funext i
    fin_cases i <;>
      simp [R2mat, Matrix.mulVec, Matrix.dotProduct, Fin.sum_univ_three]
  · funext i
    fin_cases i <;>
      simp [R3mat, Matrix.mulVec, Matrix.dotProduct, Fin.sum_univ_three]

/-- Counterexample to C7 as stated: at azimuth 0, plunge 0, rake 90 the
built matrix differs from the rake-about-x / plunge-about-y composition the
claim describes. -/
theorem C7_rotation_matrix_cx :
    build_rotation_matrix 0 0 90 ≠ claim_rotation_matrix 0 0 90 := by
  intro h
  have h00 : build_rotation_matrix 0 0 90 0 0 =
      claim_rotation_matrix 0 0 90 0 0 := by rw [h]
  have hrad0 : radians 0 = 0 := by simp [radians]
  have hrad90 : radians 90 = Real.pi / 2 := by rw [radians]; ring
  rw [build_rotation_matrix, claim_rotation_matrix, hrad0, hrad90] at h00
  simp [R1mat, R2mat, R3mat, Matrix.mul_fin_three] at h00

/-- When the cross product is nonzero, `normalized_cross` divides it by its
length. -/
theorem normalized_cross_of_ne {a b : Vector} (h : Vector.cross a b ≠ Vector.zero) :
    normalized_cross a b =
      (Vector.cross a b).divs (Vector.cross a b).length := by
  simp only [normalized_cross]
  rw [if_pos (Real.sqrt_pos.mpr (Vector.dot_self_pos _ h))]
  rfl

/-- Claim C6 (amended): every row of `normalized_cross_with` is a unit
vector with **non-positive** z-component, provided no input pair is parallel
or antiparallel; the z-component can be exactly zero (horizontal cross
products are negated to themselves), so strict negativity fails. -/
theorem C6_normalized_cross_rows (xs ys : List Vector)
    (h : ∀ a ∈ xs, ∀ b ∈ ys, Vector.cross a b ≠ Vector.zero) :
    ∀ v ∈ normalized_cross_with xs ys, v.length = 1 ∧ v.z ≤ 0 := by
  intro v hv
  rw [normalized_cross_with] at hv
  simp only [List.mem_flatMap, List.mem_map] at hv
  obtain ⟨a, ha, b, hb, rfl⟩ := hv
  have hne := h a ha b hb
  have hunit : (normalized_cross a b).length = 1 := by
    rw [normalized_cross_of_ne hne]
    exact Vector.length_divs_length _ hne
  split
  · rename_i hz
    exact ⟨hunit, le_of_lt hz⟩
  · rename_i hz
    push_neg at hz
    constructor
    · rw [Vector.length, Vector.dot_neg_self, ← Vector.length, hunit]
    · show -(normalized_cross a b).z ≤ 0
      linarith

theorem cross_z1_x1 : Vector.cross ⟨0, 0, 1⟩ ⟨1, 0, 0⟩ = ⟨0, 1, 0⟩ := by
  simp [Vector.cross]

theorem cross_z1_x1_ne : Vector.cross ⟨0, 0, 1⟩ ⟨1, 0, 0⟩ ≠ Vector.zero := by
  rw [cross_z1_x1]
  intro hc
  have hy := congrArg Vector.y hc
  simp [Vector.zero] at hy

theorem normalized_cross_with_eval :
    normalized_cross_with [⟨0, 0, 1⟩] [⟨1, 0, 0⟩] = [Vector.neg ⟨0, 1, 0⟩] := by
  have hc : normalized_cross ⟨0, 0, 1⟩ ⟨1, 0, 0⟩ = ⟨0, 1, 0⟩ := by
    rw [normalized_cross_of_ne cross_z1_x1_ne, cross_z1_x1]
    have hl : Vector.length ⟨0, 1, 0⟩ = 1 := by
      rw [Vector.length]
      norm_num [Vector.dot]
    rw [hl]
    apply Vector.ext_xyz <;> simp [Vector.divs]
  simp only [normalized_cross_with, List.flatMap_cons, List.flatMap_nil,
    List.map_cons, List.map_nil, List.append_nil]
  rw [hc]
  norm_num

/-- Witness for the amended C6 at the row produced by the pair `(0,0,1)`,
`(1,0,0)`. -/
theorem C6_normalized_cross_rows_w :
    (Vector.neg ⟨0, 1, 0⟩).length = 1 ∧ (Vector.neg ⟨0, 1, 0⟩).z ≤ 0 :=
  C6_normalized_cross_rows [⟨0, 0, 1⟩] [⟨1, 0, 0⟩]
    (by
      intro a ha b hb
      simp only [List.mem_singleton] at ha hb
      subst ha
      subst hb
      exact cross_z1_x1_ne)
    (Vector.neg ⟨0, 1, 0⟩)
    (by rw [normalized_cross_with_eval]; simp)

/-- Counterexample to C6 as stated: for the unit, non-parallel pair
`(0,0,1)`, `(1,0,0)` the produced row is `(0,-1,0)`, whose z-component is
zero, not strictly negative. -/
theorem C6_normalized_cross_rows_cx :
    Vector.cross ⟨0, 0, 1⟩ ⟨1, 0, 0⟩ ≠ Vector.zero ∧
    Vector.length ⟨0, 0, 1⟩ = 1 ∧ Vector.length ⟨1, 0, 0⟩ = 1 ∧
    ¬ (∀ v ∈ normalized_cross_with [⟨0, 0, 1⟩] [⟨1, 0, 0⟩], v.z < 0) := by
  refine ⟨cross_z1_x1_ne, ?_, ?_, ?_⟩
  · rw [Vector.length]
    norm_num [Vector.dot]
  · rw [Vector.length]
    norm_num [Vector.dot]
  · intro hall
    have hm := hall (Vector.neg ⟨0, 1, 0⟩)
      (by rw [normalized_cross_with_eval]; simp)
    simp [Vector.neg] at hm

theorem smul_one_eq (v : Vector) : Vector.smul 1 v = v := by
  cases v
  simp [Vector.smul]

/-- Without a stored rotation, preprocessing a unit point with
`invert_positive=False` is the identity. -/
theorem pre_direct_none_unit {v : Vector} (hv : v.dot v = 1) (rotate : Bool) :
    pre_direct none v false rotate = v := by
  cases rotate <;>
    · show Vector.smul (1 / v.length) v = v
      rw [Vector.length_of_unit hv]
      norm_num [smul_one_eq]

/-- Without a stored rotation, inverse postprocessing is the identity. -/
theorem post_inverse_none (v : Vector) (rotate : Bool) :
    post_inverse none v rotate = v := by
  cases rotate <;> rfl

/-- Claim C1 (amended): with no rotation, for every unit vector `v` with
`z ≤ 0`, `inverse (direct v invert_positive=False)` returns `v` for
EqualAngle and EqualArea; for Orthographic it returns the mirror
`(x, y, -z)` (its inverse takes the positive square root), which equals `v`
only when `z = 0`. -/
theorem C1_projection_round_trip (v : Vector) (hv : v.dot v = 1)
    (hz : v.z ≤ 0) :
    (EqualAngle none).inverse ((EqualAngle none).direct v false true) true = v ∧
    (EqualArea none).inverse ((EqualArea none).direct v false true) true = v ∧
    (Orthographic none).inverse ((Orthographic none).direct v false true) true =
      ⟨v.x, v.y, -v.z⟩ := by
  have hv' : v.x * v.x + v.y * v.y + v.z * v.z = 1 := hv
  have h1 : (0 : ℝ) < 1 - v.z := by linarith
  refine ⟨?_, ?_, ?_⟩
  · simp only [ProjectionBase.direct, ProjectionBase.inverse, EqualAngle]
    rw [pre_direct_none_unit hv true, post_inverse_none]
    apply Vector.ext_xyz
    · show 2 * (v.x / (1 - v.z)) /
        (1 + v.x / (1 - v.z) * (v.x / (1 - v.z)) +
          v.y / (1 - v.z) * (v.y / (1 - v.z))) = v.x
      have hsum : 1 + v.x / (1 - v.z) * (v.x / (1 - v.z)) +
          v.y / (1 - v.z) * (v.y / (1 - v.z)) = 2 / (1 - v.z) := by
        field_simp
        linear_combination (1 - v.z) * hv'
      rw [hsum]
      field_simp
    · show 2 * (v.y / (1 - v.z)) /
        (1 + v.x / (1 - v.z) * (v.x / (1 - v.z)) +
          v.y / (1 - v.z) * (v.y / (1 - v.z))) = v.y
      have hsum : 1 + v.x / (1 - v.z) * (v.x / (1 - v.z)) +
          v.y / (1 - v.z) * (v.y / (1 - v.z)) = 2 / (1 - v.z) := by
        field_simp
        linear_combination (1 - v.z) * hv'
      rw [hsum]
      field_simp
    · show (-1 + v.x / (1 - v.z) * (v.x / (1 - v.z)) +
          v.y / (1 - v.z) * (v.y / (1 - v.z))) /
        (1 + v.x / (1 - v.z) * (v.x / (1 - v.z)) +
          v.y / (1 - v.z) * (v.y / (1 - v.z))) = v.z
      have hsum : 1 + v.x / (1 - v.z) * (v.x / (1 - v.z)) +
          v.y / (1 - v.z) * (v.y / (1 - v.z)) = 2 / (1 - v.z) := by
        field_simp
        linear_combination (1 - v.z) * hv'
      have hsum2 : -1 + v.x / (1 - v.z) * (v.x / (1 - v.z)) +
          v.y / (1 - v.z) * (v.y / (1 - v.z)) = 2 * v.z / (1 - v.z) := by
        field_simp
        linear_combination (1 - v.z) * hv'
      rw [hsum, hsum2]
      field_simp
  · simp only [ProjectionBase.direct, ProjectionBase.inverse, EqualArea]
    rw [pre_direct_none_unit hv true, post_inverse_none]
    have key : v.x * Real.sqrt (1 / (1 - v.z)) * Real.sqrt 2 *
          (v.x * Real.sqrt (1 / (1 - v.z)) * Real.sqrt 2) +
        v.y * Real.sqrt (1 / (1 - v.z)) * Real.sqrt 2 *
          (v.y * Real.sqrt (1 / (1 - v.z)) * Real.sqrt 2) = 2 * (1 + v.z) := by
      have hre : v.x * Real.sqrt (1 / (1 - v.z)) * Real.sqrt 2 *
            (v.x * Real.sqrt (1 / (1 - v.z)) * Real.sqrt 2) +
          v.y * Real.sqrt (1 / (1 - v.z)) * Real.sqrt 2 *
            (v.y * Real.sqrt (1 / (1 - v.z)) * Real.sqrt 2) =
          (v.x * v.x + v.y * v.y) *
            (Real.sqrt (1 / (1 - v.z)) * Real.sqrt (1 / (1 - v.z))) *
            (Real.sqrt 2 * Real.sqrt 2) := by ring
      have hs1 : Real.sqrt (1 / (1 - v.z)) * Real.sqrt (1 / (1 - v.z)) =
          1 / (1 - v.z) := Real.mul_self_sqrt (by positivity)
      have hs2 : Real.sqrt 2 * Real.sqrt 2 = (2 : ℝ) :=
        Real.mul_self_sqrt (by norm_num)
      have hxy : v.x * v.x + v.y * v.y = 1 - v.z * v.z := by linarith
      rw [hre, hs1, hs2, hxy]
      field_simp
      ring
    have hmerge : Real.sqrt ((1 - v.z) / 2) * Real.sqrt (1 / (1 - v.z)) *
        Real.sqrt 2 = 1 := by
      rw [← Real.sqrt_mul (by positivity), ← Real.sqrt_mul (by positivity)]
      rw [show (1 - v.z) / 2 * (1 / (1 - v.z)) * 2 = (1 - v.z) / (1 - v.z) by
        ring]
      rw [div_self (ne_of_gt h1), Real.sqrt_one]
    apply Vector.ext_xyz
    · show Real.sqrt (1 - (v.x * Real.sqrt (1 / (1 - v.z)) * Real.sqrt 2 *
            (v.x * Real.sqrt (1 / (1 - v.z)) * Real.sqrt 2) +
          v.y * Real.sqrt (1 / (1 - v.z)) * Real.sqrt 2 *
            (v.y * Real.sqrt (1 / (1 - v.z)) * Real.sqrt 2)) / 4) *
          (v.x * Real.sqrt (1 / (1 - v.z)) * Real.sqrt 2) = v.x
      rw [key, show 1 - 2 * (1 + v.z) / 4 = (1 - v.z) / 2 by ring,
        show Real.sqrt ((1 - v.z) / 2) *
            (v.x * Real.sqrt (1 / (1 - v.z)) * Real.sqrt 2) =
          v.x * (Real.sqrt ((1 - v.z) / 2) * Real.sqrt (1 / (1 - v.z)) *
            Real.sqrt 2) by ring, hmerge, mul_one]
    · show Real.sqrt (1 - (v.x * Real.sqrt (1 / (1 - v.z)) * Real.sqrt 2 *
            (v.x * Real.sqrt (1 / (1 - v.z)) * Real.sqrt 2) +
          v.y * Real.sqrt (1 / (1 - v.z)) * Real.sqrt 2 *
            (v.y * Real.sqrt (1 / (1 - v.z)) * Real.sqrt 2)) / 4) *
          (v.y * Real.sqrt (1 / (1 - v.z)) * Real.sqrt 2) = v.y
      rw [key, show 1 - 2 * (1 + v.z) / 4 = (1 - v.z) / 2 by ring,
        show Real.sqrt ((1 - v.z) / 2) *
            (v.y * Real.sqrt (1 / (1 - v.z)) * Real.sqrt 2) =
          v.y * (Real.sqrt ((1 - v.z) / 2) * Real.sqrt (1 / (1 - v.z)) *
            Real.sqrt 2) by ring, hmerge, mul_one]
    · show -1 + (v.x * Real.sqrt (1 / (1 - v.z)) * Real.sqrt 2 *
            (v.x * Real.sqrt (1 / (1 - v.z)) * Real.sqrt 2) +
          v.y * Real.sqrt (1 / (1 - v.z)) * Real.sqrt 2 *
            (v.y * Real.sqrt (1 / (1 - v.z)) * Real.sqrt 2)) / 2 = v.z
      rw [key]
      ring
  · simp only [ProjectionBase.direct, ProjectionBase.inverse, Orthographic]
    rw [pre_direct_none_unit hv true, post_inverse_none]
    apply Vector.ext_xyz
    · rfl
    · rfl
    · show Real.sqrt (1 - v.x * v.x - v.y * v.y) = -v.z
      rw [show 1 - v.x * v.x - v.y * v.y = v.z ^ 2 by linear_combination (-1 : ℝ) * hv',
        Real.sqrt_sq_eq_abs, abs_of_nonpos hz]

/-- Witness for the amended C1 at the unit vector `(1,0,0)`. -/
theorem C1_projection_round_trip_w :
    (EqualAngle none).inverse
        ((EqualAngle none).direct ⟨1, 0, 0⟩ false true) true = ⟨1, 0, 0⟩ ∧
    (EqualArea none).inverse
        ((EqualArea none).direct ⟨1, 0, 0⟩ false true) true = ⟨1, 0, 0⟩ ∧
    (Orthographic none).inverse
        ((Orthographic none).direct ⟨1, 0, 0⟩ false true) true =
      ⟨1, 0, -0⟩ :=
  C1_projection_round_trip ⟨1, 0, 0⟩ (by norm_num [Vector.dot]) le_rfl

/-- Counterexample to C1 as stated: the Orthographic round trip maps
`(0,0,-1)` to `(0,0,1)`, not back to itself. -/
theorem C1_projection_round_trip_cx :
    (Orthographic none).inverse
        ((Orthographic none).direct ⟨0, 0, -1⟩ false true) true ≠
      ⟨0, 0, -1⟩ := by
  intro h
  simp only [ProjectionBase.direct, ProjectionBase.inverse, Orthographic] at h
  rw [pre_direct_none_unit (by norm_num [Vector.dot]) true,
    post_inverse_none] at h
  have hz := congrArg Vector.z h
  norm_num [Real.sqrt_one] at hz

theorem degrees_radians (d : ℝ) : degrees (radians d) = d := by
  rw [degrees, radians]
  field_simp

theorem pymod_eq_self {a b : ℝ} (h0 : 0 ≤ a) (h1 : a < b) (hb : 0 < b) :
    pymod a b = a := by
  rw [pymod]
  have hfl : ⌊a / b⌋ = 0 := by
    rw [Int.floor_eq_zero_iff]
    constructor
    · positivity
    · rw [div_lt_one hb]
      linarith
  rw [hfl]
  simp

theorem pymod_eq_add {a b : ℝ} (h0 : -b ≤ a) (h1 : a < 0) (hb : 0 < b) :
    pymod a b = a + b := by
  rw [pymod]
  have hfl : ⌊a / b⌋ = -1 := by
    rw [Int.floor_eq_iff]
    constructor
    · push_cast
      rw [neg_le, ← neg_div]
      exact (div_le_one hb).mpr (by linarith)
    · push_cast
      norm_num
      exact div_neg_of_neg_of_pos h1 hb
  rw [hfl]
  push_cast
  ring

/-- `atan2` of a positively scaled cosine/sine pair recovers the angle on
`(-π, π]`. -/
theorem atan2_pos_mul {c t : ℝ} (hc : 0 < c) (h1 : -Real.pi < t)
    (h2 : t ≤ Real.pi) :
    atan2 (c * Real.sin t) (c * Real.cos t) = t := by
  rw [atan2, Complex.mk_eq_add_mul_I]
  have hfac : ((c * Real.cos t : ℝ) : ℂ) +
      ((c * Real.sin t : ℝ) : ℂ) * Complex.I =
      (c : ℂ) * (((Real.cos t : ℝ) : ℂ) + ((Real.sin t : ℝ) : ℂ) * Complex.I) := by
    push_cast
    ring
  rw [hfac, Complex.arg_real_mul _ hc, Complex.ofReal_cos, Complex.ofReal_sin]
  exact Complex.arg_cos_add_sin_mul_I ⟨h1, h2⟩

/-- Claim C2: for every trend in `[0, 360)` and plunge in `[0, 90]`,
`from_attitude(trend, plunge).attitude` equals `(trend, plunge)`, except at
plunge 90 (the pole) where any trend is accepted and only the plunge
component is required to be 90. -/
theorem C2_attitude_round_trip (tr pl : ℝ) (htr0 : 0 ≤ tr) (htr1 : tr < 360)
    (hpl0 : 0 ≤ pl) (hpl1 : pl ≤ 90) :
    (pl < 90 → Vector.attitude (from_attitude tr pl) = (tr, pl)) ∧
    (pl = 90 → (Vector.attitude (from_attitude tr pl)).2 = 90) := by
  have hπ := Real.pi_pos
  have hdot : (from_attitude tr pl).dot (from_attitude tr pl) = 1 := by
    simp only [from_attitude, dcos_line, Vector.dot]
    linear_combination
      (Real.cos (radians pl)) ^ 2 * Real.sin_sq_add_cos_sq (radians tr) +
        Real.sin_sq_add_cos_sq (radians pl)
  have hlen := Vector.length_of_unit hdot
  have hplr0 : 0 ≤ radians pl := by
    rw [radians]
    apply div_nonneg (mul_nonneg hpl0 hπ.le)
    norm_num
  have hplr2 : radians pl ≤ Real.pi / 2 := by
    rw [radians]
    nlinarith
  have hsin0 : 0 ≤ Real.sin (radians pl) :=
    Real.sin_nonneg_of_nonneg_of_le_pi hplr0 (by linarith)
  have hznp : ¬ ((from_attitude tr pl).z / (from_attitude tr pl).length > 0) := by
    rw [hlen, div_one]
    show ¬ (-Real.sin (radians pl) > 0)
    push_neg
    linarith
  have hsnd : (Vector.attitude (from_attitude tr pl)).2 = pl := by
    show degrees (Real.arcsin
      |(from_attitude tr pl).z / (from_attitude tr pl).length|) = pl
    rw [hlen, div_one]
    show degrees (Real.arcsin |-Real.sin (radians pl)|) = pl
    rw [abs_neg, abs_of_nonneg hsin0,
      Real.arcsin_sin (by linarith) hplr2, degrees_radians]
  refine ⟨fun hpl90 => ?_, fun hpl90 => by rw [hsnd, hpl90]⟩
  have hcp : 0 < Real.cos (radians pl) := by
    apply Real.cos_pos_of_mem_Ioo
    constructor
    · linarith
    · rw [radians]
      nlinarith
  have hfst : (Vector.attitude (from_attitude tr pl)).1 = tr := by
    show pymod (degrees (atan2
      (if (from_attitude tr pl).z / (from_attitude tr pl).length > 0
        then -((from_attitude tr pl).x / (from_attitude tr pl).length)
        else (from_attitude tr pl).x / (from_attitude tr pl).length)
      (if (from_attitude tr pl).z / (from_attitude tr pl).length > 0
        then -((from_attitude tr pl).y / (from_attitude tr pl).length)
        else (from_attitude tr pl).y / (from_attitude tr pl).length))) 360 = tr
    rw [if_neg hznp, if_neg hznp, hlen, div_one, div_one]
    show pymod (degrees (atan2
      (Real.cos (radians pl) * Real.sin (radians tr))
      (Real.cos (radians pl) * Real.cos (radians tr)))) 360 = tr
    by_cases htr180 : tr ≤ 180
    · rw [atan2_pos_mul hcp (by rw [radians]; nlinarith)
        (by rw [radians]; nlinarith), degrees_radians,
        pymod_eq_self htr0 htr1 (by norm_num)]
    · push_neg at htr180
      rw [show Real.cos (radians tr) = Real.cos (radians tr - 2 * Real.pi)
          from (Real.cos_sub_two_pi _).symm,
        show Real.sin (radians tr) = Real.sin (radians tr - 2 * Real.pi)
          from (Real.sin_sub_two_pi _).symm,
        atan2_pos_mul hcp (by rw [radians]; nlinarith)
          (by rw [radians]; nlinarith)]
      rw [show degrees (radians tr - 2 * Real.pi) = tr - 360 by
        rw [degrees, radians]; field_simp; ring]
      rw [pymod_eq_add (by linarith) (by linarith) (by norm_num)]
      ring
  rw [Prod.ext_iff]
  exact ⟨hfst, hsnd⟩

/-- Witness for C2 at trend 45, plunge 30 and at the pole case plunge 90. -/
theorem C2_attitude_round_trip_w :
    ((30 : ℝ) < 90 → Vector.attitude (from_attitude 45 30) = (45, 30)) ∧
    ((30 : ℝ) = 90 → (Vector.attitude (from_attitude 45 30)).2 = 90) :=
  C2_attitude_round_trip 45 30 (by norm_num) (by norm_num) (by norm_num)
    (by norm_num)

theorem angle_with_same : Vector.angle_with ⟨1, 0, 0⟩ ⟨1, 0, 0⟩ = 0 := by
  rw [Vector.angle_with]
  have h : Vector.length ⟨1, 0, 0⟩ = 1 := by
    rw [Vector.length]
    norm_num [Vector.dot]
  rw [h]
  norm_num [Vector.dot, clip, Real.arccos_one]

theorem angle_with_perp :
    Vector.angle_with ⟨1, 0, 0⟩ ⟨0, 1, 0⟩ = Real.pi / 2 := by
  rw [Vector.angle_with]
  have h1 : Vector.length ⟨1, 0, 0⟩ = 1 := by
    rw [Vector.length]
    norm_num [Vector.dot]
  have h2 : Vector.length ⟨0, 1, 0⟩ = 1 := by
    rw [Vector.length]
    norm_num [Vector.dot]
  rw [h1, h2]
  norm_num [Vector.dot, clip, Real.arccos_zero]

theorem tol_pos : 0 < radians 1 := by
  rw [radians]
  positivity

theorem not_lt_tol_90 : ¬ (|Real.pi / 2| < radians 1) := by
  rw [abs_of_pos (by positivity), radians]
  push_neg
  nlinarith [Real.pi_pos]

theorem join_eval_two :
    join_segments (radians 1) [[⟨1, 0, 0⟩], [⟨0, 1, 0⟩]] =
      [[⟨0, 1, 0⟩], [⟨1, 0, 0⟩]] := by
  rw [join_segments]
  rw [show seg_last [(⟨1, 0, 0⟩ : Vector)] = ⟨1, 0, 0⟩ from rfl,
    show seg_head [(⟨0, 1, 0⟩ : Vector)] = ⟨0, 1, 0⟩ from rfl,
    show seg_last [(⟨0, 1, 0⟩ : Vector)] = ⟨0, 1, 0⟩ from rfl,
    show seg_head [(⟨1, 0, 0⟩ : Vector)] = ⟨1, 0, 0⟩ from rfl,
    angle_with_perp, if_neg not_lt_tol_90, if_neg not_lt_tol_90,
    if_neg not_lt_tol_90, if_neg not_lt_tol_90]
  rfl

theorem join_eval_three :
    join_segments (radians 1) [[⟨1, 0, 0⟩], [⟨0, 1, 0⟩], [⟨1, 0, 0⟩]] =
      [[⟨0, 1, 0⟩], [⟨1, 0, 0⟩], [⟨1, 0, 0⟩]] := by
  rw [join_segments]
  rw [show seg_last [(⟨1, 0, 0⟩ : Vector)] = ⟨1, 0, 0⟩ from rfl,
    show seg_head [(⟨0, 1, 0⟩ : Vector)] = ⟨0, 1, 0⟩ from rfl,
    show seg_last [(⟨0, 1, 0⟩ : Vector)] = ⟨0, 1, 0⟩ from rfl,
    show seg_head [(⟨1, 0, 0⟩ : Vector)] = ⟨1, 0, 0⟩ from rfl,
    angle_with_perp, if_neg not_lt_tol_90, if_neg not_lt_tol_90,
    if_neg not_lt_tol_90, if_neg not_lt_tol_90]
  rfl

/-- Claim C5 (amended): when `_join_segments` returns two or more segments,
only the pair formed by the **last** returned segment and the **first**
returned segment is guaranteed unmergeable (all four facing-endpoint
combinations at or beyond `angular_tol`); the loop stops at the first
adjacent pair that fails to merge, so other returned pairs may still have
facing endpoints within tolerance. -/
theorem C5_join_segments (tol : ℝ) (segs : List (List Vector))
    (h2 : 2 ≤ (join_segments tol segs).length) :
    ¬ |Vector.angle_with (seg_last ((join_segments tol segs).getLastD []))
        (seg_head ((join_segments tol segs).headD []))| < tol ∧
    ¬ |Vector.angle_with (seg_head ((join_segments tol segs).getLastD []))
        (seg_last ((join_segments tol segs).headD []))| < tol ∧
    ¬ |Vector.angle_with (seg_last ((join_segments tol segs).getLastD []))
        (seg_last ((join_segments tol segs).headD []))| < tol ∧
    ¬ |Vector.angle_with (seg_head ((join_segments tol segs).getLastD []))
        (seg_head ((join_segments tol segs).headD []))| < tol := by
  induction segs using join_segments.induct tol with
  | case1 s t rest hc ih =>
    rw [join_segments, if_pos hc]
    rw [join_segments, if_pos hc] at h2
    exact ih h2
  | case2 s t rest hc1 hc ih =>
    rw [join_segments, if_neg hc1, if_pos hc]
    rw [join_segments, if_neg hc1, if_pos hc] at h2
    exact ih h2
  | case3 s t rest hc1 hc2 hc ih =>
    rw [join_segments, if_neg hc1, if_neg hc2, if_pos hc]
    rw [join_segments, if_neg hc1, if_neg hc2, if_pos hc] at h2
    exact ih h2
  | case4 s t rest hc1 hc2 hc3 hc ih =>
    rw [join_segments, if_neg hc1, if_neg hc2, if_neg hc3, if_pos hc]
    rw [join_segments, if_neg hc1, if_neg hc2, if_neg hc3, if_pos hc] at h2
    exact ih h2
  | case5 s t rest hc1 hc2 hc3 hc4 =>
    rw [join_segments, if_neg hc1, if_neg hc2, if_neg hc3, if_neg hc4]
    simp only [List.headD_cons]
    have hlast : ((t : List Vector) :: (rest ++ [s])).getLastD [] = s := by
      rw [List.getLastD_cons]
      simp
    rw [hlast]
    exact ⟨hc1, hc2, hc3, hc4⟩
  | case6 segs hns =>
    match segs with
    | [] => simp [join_segments] at h2
    | [s] => simp [join_segments] at h2
    | s :: t :: rest => exact absurd rfl (hns s t rest)

/-- Witness for the amended C5 on a two-segment input 90° apart. -/
theorem C5_join_segments_w :
    ¬ |Vector.angle_with
        (seg_last ((join_segments (radians 1)
          [[⟨1, 0, 0⟩], [⟨0, 1, 0⟩]]).getLastD []))
        (seg_head ((join_segments (radians 1)
          [[⟨1, 0, 0⟩], [⟨0, 1, 0⟩]]).headD []))| < radians 1 ∧
    ¬ |Vector.angle_with
        (seg_head ((join_segments (radians 1)
          [[⟨1, 0, 0⟩], [⟨0, 1, 0⟩]]).getLastD []))
        (seg_last ((join_segments (radians 1)
          [[⟨1, 0, 0⟩], [⟨0, 1, 0⟩]]).headD []))| < radians 1 ∧
    ¬ |Vector.angle_with
        (seg_last ((join_segments (radians 1)
          [[⟨1, 0, 0⟩], [⟨0, 1, 0⟩]]).getLastD []))
        (seg_last ((join_segments (radians 1)
          [[⟨1, 0, 0⟩], [⟨0, 1, 0⟩]]).headD []))| < radians 1 ∧
    ¬ |Vector.angle_with
        (seg_head ((join_segments (radians 1)
          [[⟨1, 0, 0⟩], [⟨0, 1, 0⟩]]).getLastD []))
        (seg_head ((join_segments (radians 1)
          [[⟨1, 0, 0⟩], [⟨0, 1, 0⟩]]).headD []))| < radians 1 :=
  C5_join_segments (radians 1) [[⟨1, 0, 0⟩], [⟨0, 1, 0⟩]]
    (by rw [join_eval_two]; norm_num)

/-- Counterexample to C5 as stated: on three singleton segments at 0°, 90°,
0° the returned list still contains two distinct segments (positions 1 and 2)
whose facing endpoints are within the tolerance: the loop stopped at the
first unmergeable pair without checking the rest. -/
theorem C5_join_segments_cx :
    join_segments (radians 1) [[⟨1, 0, 0⟩], [⟨0, 1, 0⟩], [⟨1, 0, 0⟩]] =
      [[⟨0, 1, 0⟩], [⟨1, 0, 0⟩], [⟨1, 0, 0⟩]] ∧
    2 ≤ (join_segments (radians 1)
      [[⟨1, 0, 0⟩], [⟨0, 1, 0⟩], [⟨1, 0, 0⟩]]).length ∧
    |Vector.angle_with
      (seg_last ((join_segments (radians 1)
        [[⟨1, 0, 0⟩], [⟨0, 1, 0⟩], [⟨1, 0, 0⟩]]).getD 1 []))
      (seg_head ((join_segments (radians 1)
        [[⟨1, 0, 0⟩], [⟨0, 1, 0⟩], [⟨1, 0, 0⟩]]).getD 2 []))| < radians 1 := by
  refine ⟨join_eval_three, ?_, ?_⟩
  · rw [join_eval_three]
    norm_num
  · rw [join_eval_three]
    show |Vector.angle_with ⟨1, 0, 0⟩ ⟨1, 0, 0⟩| < radians 1
    rw [angle_with_same, abs_zero]
    exact tol_pos

end SmallCircles

end
